import Mathlib

/-!
# Verification of the `prime` crate's primality-decision engine

This file gives a shallow embedding in Lean 4 of the Rust sources
`src/trial_division.rs`, `src/miller_rabin.rs` and `src/solovay_strassen.rs`
of the `prime` repository, together with theorems settling the claims of the
specification against that embedding.

Conventions of the embedding:
* Machine integers (`u64`, `u128`) are modelled as `Nat`; wherever the source
  can overflow or panic, the embedded function returns `Option` and yields
  `none` on the panicking/overflowing path (Rust aborts on arithmetic
  overflow in checked builds; `x % 0` always panics).
* Loops whose termination measure is not structural are written with an
  explicit fuel argument that is shown (or chosen) to be large enough; fuel
  exhaustion yields `none` and is proven unreachable on the stated domains.
* The injected randomness source is modelled, following the specification's
  interface contract, as an ambient sequence `draws : ℕ → ℕ` of values, one
  per round; the contract says a request with bounds `(lo, hi)` yields a
  value in the closed interval `[lo, hi]`.
-/

set_option maxRecDepth 10000

/-- The outcome vocabulary shared by all algorithms (`Primality` in `lib.rs`). -/
inductive Primality : Type where
  | ZeroOrOne : Primality
  | Prime : Primality
  | Composite : Primality
  | ProbablyPrime : Primality
deriving DecidableEq, Repr

/-- `u64::MAX`. -/
def U64_MAX : Nat := 18446744073709551615

/-- `u128::MAX`. -/
def U128_MAX : Nat := 340282366920938463463374607431768211455

/-! ## ModularArithmetic (`miller_rabin.rs`, lines 10–47) -/

/-- `modmul_u64` from `miller_rabin.rs`: `a * b % m` for `u64` operands.
The source first attempts `a.checked_mul(b)`; on overflow it widens to
`u128` (exact, since `a*b < 2^128`), reduces, asserts the result fits in
`u64` and narrows.  `none` models a panic: division by zero (`m == 0`) or
the `assert!` failing. -/
def modmul_u64 (a b m : Nat) : Option Nat :=
  if m = 0 then none
  else if a * b ≤ U64_MAX then some (a * b % m)
  else if a * b % m ≤ U64_MAX then some (a * b % m)
  else none

/-- The iteration of `modpow`'s `while exponent > 0` loop, with explicit
fuel.  Each pass conditionally multiplies `result` by `base`, halves the
exponent and squares the base, all via `modmul_u64`. -/
def modpowLoop (m : Nat) : Nat → Nat → Nat → Nat → Option Nat
  | 0, _, e, r => if e = 0 then some r else none
  | fuel + 1, b, e, r =>
    if e = 0 then some r
    else do
      let r' ← if e % 2 = 1 then modmul_u64 r b m else some r
      let b' ← modmul_u64 b b m
      modpowLoop m fuel b' (e / 2) r'

/-- `modpow` from `miller_rabin.rs`: `base ^ exponent % modulus` by
square-and-multiply.  `modulus == 1` returns `0` immediately; for
`modulus == 0` the source's `base % modulus` panics (`none`).  The loop
halves the exponent each pass, so `exponent` itself is ample fuel. -/
def modpow (base exponent modulus : Nat) : Option Nat :=
  if modulus = 1 then some 0
  else if modulus = 0 then none
  else modpowLoop modulus exponent (base % modulus) exponent 1

/-- The 25 primes from 2 through 97 enumerated by the `match` arms of
`trial_division_u64`. -/
def primes25 : List Nat :=
  [2, 3, 5, 7, 11, 13, 17, 19, 23, 29, 31, 37, 41, 43, 47,
   53, 59, 61, 67, 71, 73, 79, 83, 89, 97]

/-- The 6k±1 divisor loop shared by `trial_division_u64` and
`trial_division_u128`, parameterized by the width's maximal value `cap`
(`u64::MAX` resp. `u128::MAX`).  `i.pow(2)` is a machine multiplication:
when the true square exceeds `cap` the source overflows (`none`).
Fuel exhaustion is also `none`. -/
def tdLoopChecked (cap n : Nat) : Nat → Nat → Option Primality
  | 0, _ => none
  | fuel + 1, i =>
    if cap < i * i then none
    else if n < i * i then some Primality.Prime
    else if n % i = 0 ∨ n % (i + 2) = 0 then some Primality.Composite
    else tdLoopChecked cap n fuel (i + 6)

/-- The 6k±1 divisor loop of `trial_division_biguint`: `BigUint`
arithmetic is exact, so there is no overflow case. -/
def tdLoopNat (n : Nat) : Nat → Nat → Option Primality
  | 0, _ => none
  | fuel + 1, i =>
    if n < i * i then some Primality.Prime
    else if n % i = 0 ∨ n % (i + 2) = 0 then some Primality.Composite
    else tdLoopNat n fuel (i + 6)

/-- `trial_division_u64` from `trial_division.rs`.  The fuel `n` is ample:
the loop runs at most `√n/6 + 1` rounds before breaking or overflowing. -/
def trial_division_u64 (n : Nat) : Option Primality :=
  if n = 0 ∨ n = 1 then some Primality.ZeroOrOne
  else if n ∈ primes25 then some Primality.Prime
  else if n % 2 = 0 ∨ n % 3 = 0 then some Primality.Composite
  else tdLoopChecked U64_MAX n n 5

/-- `trial_division_u128` from `trial_division.rs`: delegates to the 64-bit
variant when the value fits, else runs the loop at 128-bit width. -/
def trial_division_u128 (n : Nat) : Option Primality :=
  if n ≤ U64_MAX then trial_division_u64 n
  else if n % 2 = 0 ∨ n % 3 = 0 then some Primality.Composite
  else tdLoopChecked U128_MAX n n 5

/-- `trial_division_biguint` from `trial_division.rs`: delegates to the
128-bit variant when the value fits, else runs the loop at arbitrary
precision. -/
def trial_division_biguint (n : Nat) : Option Primality :=
  if n ≤ U128_MAX then trial_division_u128 n
  else if n % 2 = 0 ∨ n % 3 = 0 then some Primality.Composite
  else tdLoopNat n n 5

/-- Specification-side description of the divisor search (claim C3's words):
some stepping index `j` (candidates `i + 6j` with companions `i + 6j + 2`,
the claims start at `i = 5`) reaches an exact divisor while `i*i ≤ n`. -/
def hasSteppedDivisorFrom (n i : Nat) : Prop :=
  ∃ j, (i + 6 * j) * (i + 6 * j) ≤ n ∧ ((i + 6 * j) ∣ n ∨ (i + 6 * j + 2) ∣ n)

instance (n i : Nat) : Decidable (hasSteppedDivisorFrom n i) :=
  decidable_of_iff
    (∃ j, j < n + 1 ∧
      ((i + 6 * j) * (i + 6 * j) ≤ n ∧ ((i + 6 * j) ∣ n ∨ (i + 6 * j + 2) ∣ n)))
    (by
      constructor
      · rintro ⟨j, _, h⟩
        exact ⟨j, h⟩
      · rintro ⟨j, h⟩
        refine ⟨j, ?_, h⟩
        nlinarith [h.1])

/-- Specification-side restatement of `trial_division_u64` (claim C3). -/
def tdSpec (n : Nat) : Primality :=
  if n = 0 ∨ n = 1 then Primality.ZeroOrOne
  else if n ∈ primes25 then Primality.Prime
  else if 2 ∣ n ∨ 3 ∣ n then Primality.Composite
  else if hasSteppedDivisorFrom n 5 then Primality.Composite
  else Primality.Prime

/-- Specification-side classification run by the wider trial-division
variants beyond their delegation bound (claim C8): the same even/3 check
followed by the same 6k±1 loop. -/
def tdSpecLarge (n : Nat) : Primality :=
  if 2 ∣ n ∨ 3 ∣ n then Primality.Composite
  else if hasSteppedDivisorFrom n 5 then Primality.Composite
  else Primality.Prime

def powModLoop (m : Nat) : Nat → Nat → Nat → Nat → Nat
  | 0, _, _, r => r
  | fuel + 1, b, e, r =>
    if e = 0 then r
    else powModLoop m fuel (b * b % m) (e / 2) (if e % 2 = 1 then r * b % m else r)

def powMod (b e m : Nat) : Nat := powModLoop m e (b % m) e (1 % m)

/-- The `while d % 2 == 0 { d /= 2; r += 1 }` factorization loop shared by
both Miller–Rabin variants, with fuel.  The source loops forever when
`d = 0` (only possible for input `n = 1`, which violates the documented
precondition `n > 1`); the embedding stops there instead. -/
def stripTwosF : Nat → Nat → Nat → Nat × Nat
  | 0, d, r => (d, r)
  | fuel + 1, d, r =>
    if d % 2 = 0 ∧ d ≠ 0 then stripTwosF fuel (d / 2) (r + 1) else (d, r)

/-- Factor `d = 2^r · d'` with `d'` odd; returns `(d', r)`.  `d` halvings
of fuel are ample. -/
def stripTwos (d : Nat) : Nat × Nat := stripTwosF d d 0

/-- The deterministic witness table of `miller_rabin_primality_test_u64`
(`miller_rabin.rs`, lines 72–87).  The `0..=2` arm is `unreachable!()`,
modelled as `none`. -/
def witnessesU64 (n : Nat) : Option (List Nat) :=
  if n ≤ 2 then none
  else if n ≤ 2046 then some [2]
  else if n ≤ 1373652 then some [2, 3]
  else if n ≤ 9080190 then some [31, 73]
  else if n ≤ 25326000 then some [2, 3, 5]
  else if n ≤ 3215031750 then some [2, 3, 5, 7]
  else if n ≤ 4759123140 then some [2, 7, 61]
  else if n ≤ 1122004669632 then some [2, 13, 23, 1662803]
  else if n ≤ 2152302898746 then some [2, 3, 5, 7, 11]
  else if n ≤ 3474749660382 then some [2, 3, 5, 7, 11, 13]
  else if n ≤ 341550071728320 then some [2, 3, 5, 7, 11, 13, 17]
  else if n ≤ 3825123056546413050 then some [2, 3, 5, 7, 11, 13, 17, 19, 23]
  else some [2, 3, 5, 7, 11, 13, 17, 19, 23, 29, 31, 37]

/-- The inner `for _ in 0..r` squaring chain of the deterministic test:
repeatedly `x ← modpow(x, 2, n)`, passing as soon as `x = n - 1`;
`some false` after `r` squarings means the witness proves compositeness. -/
def mrSquaresU64 (n nm1 : Nat) : Nat → Nat → Option Bool
  | 0, _ => some false
  | count + 1, x => do
    let x' ← modpow x 2 n
    if x' = nm1 then some true else mrSquaresU64 n nm1 count x'

/-- One deterministic witness check: `x = modpow(a, d, n)` passes
immediately if `x = 1` or `x = n-1`, else defers to the squaring chain. -/
def mrWitnessU64 (n nm1 d r a : Nat) : Option Bool := do
  let x ← modpow a d n
  if x = 1 ∨ x = nm1 then some true
  else mrSquaresU64 n nm1 r x

/-- The `'WitnessLoop` over the selected witness list: any failing witness
short-circuits to `Composite`; all passing yields `Prime`. -/
def mrWitnessLoop (n nm1 d r : Nat) : List Nat → Option Primality
  | [] => some Primality.Prime
  | a :: ws => do
    let pass ← mrWitnessU64 n nm1 d r a
    if pass then mrWitnessLoop n nm1 d r ws else some Primality.Composite

/-- `miller_rabin_primality_test_u64` from `miller_rabin.rs`. -/
def miller_rabin_primality_test_u64 (n : Nat) : Option Primality := do
  let nm1 := n - 1
  let dr := stripTwos nm1
  let ws ← witnessesU64 n
  mrWitnessLoop n nm1 dr.1 dr.2 ws

/-- Modelled from the spec: `BigUint::modpow` (the big-integer
capability's own modular-exponentiation operation, provided by the
external `num_bigint` crate, not by this repository's sources) computes
`base ^ exponent % modulus` exactly. -/
def bigModpow (base exponent modulus : Nat) : Nat := base ^ exponent % modulus

/-- Squaring chain of the probabilistic (arbitrary-precision) test. -/
def mrSquaresBig (n nm1 : Nat) : Nat → Nat → Bool
  | 0, _ => false
  | count + 1, x =>
    let x' := bigModpow x 2 n
    if x' = nm1 then true else mrSquaresBig n nm1 count x'

/-- One probabilistic round on witness `a`: identical check logic to the
deterministic variant, over exact big-integer arithmetic. -/
def mrRoundPassBig (n nm1 d r a : Nat) : Bool :=
  let x := bigModpow a d n
  if x = 1 ∨ x = nm1 then true else mrSquaresBig n nm1 r x

/-- The `'WitnessLoop: for _ in 0..k` of the probabilistic test; round `i`
examines the value `draws i` provided by the randomness capability. -/
def mrRoundsBig (n nm1 d r : Nat) (draws : Nat → Nat) : Nat → Nat → Primality
  | _, 0 => Primality.ProbablyPrime
  | i, rem + 1 =>
    if mrRoundPassBig n nm1 d r (draws i) then
      mrRoundsBig n nm1 d r draws (i + 1) rem
    else Primality.Composite

/-- `miller_rabin_primality_test_biguint` from `miller_rabin.rs`,
parameterized by the sequence of random draws (one per round). -/
def miller_rabin_primality_test_biguint (n k : Nat) (draws : Nat → Nat) :
    Primality :=
  let nm1 := n - 1
  let dr := stripTwos nm1
  mrRoundsBig n nm1 dr.1 dr.2 draws 0 k

/-! ### Miller–Rabin on primes: every witness passes -/

/-- The specification's witness-selection table (claim C2): strictly
increasing inclusive upper thresholds paired with witness sets. -/
def specWitnessTable : List (Nat × List Nat) :=
  [(2046, [2]),
   (1373652, [2, 3]),
   (9080190, [31, 73]),
   (25326000, [2, 3, 5]),
   (3215031750, [2, 3, 5, 7]),
   (4759123140, [2, 7, 61]),
   (1122004669632, [2, 13, 23, 1662803]),
   (2152302898746, [2, 3, 5, 7, 11]),
   (3474749660382, [2, 3, 5, 7, 11, 13]),
   (341550071728320, [2, 3, 5, 7, 11, 13, 17]),
   (3825123056546413050, [2, 3, 5, 7, 11, 13, 17, 19, 23])]

/-- Claim C2's selection: a single range lookup over the inclusive upper
thresholds, falling back to the 12-witness set valid for all 64-bit
inputs. -/
def specWitnessLookup (n : Nat) : List Nat :=
  match specWitnessTable.find? (fun e => decide (n ≤ e.1)) with
  | some e => e.2
  | none => [2, 3, 5, 7, 11, 13, 17, 19, 23, 29, 31, 37]

/-- The inner `while a % 2 == 0` loop of `legendre_symbol_u64`: strip
factors of 2 from `a`, flipping the running sign whenever `n % 8 ∈ {3,5}`.
The source loops forever if `a = 0` (unreachable: the outer loop guards
`a != 0`); fuel exhaustion models that as `none`. -/
def legStrip : Nat → Nat → Nat → Int → Option (Nat × Int)
  | 0, a, _, res => if a % 2 = 0 then none else some (a, res)
  | fuel + 1, a, n, res =>
    if a % 2 = 0 then
      legStrip fuel (a / 2) n (if n % 8 = 3 ∨ n % 8 = 5 then -res else res)
    else some (a, res)

/-- The outer `while a != 0` loop of `legendre_symbol_u64`: strip twos,
swap `(a, n)` flipping the sign when both are `≡ 3 (mod 4)`, reduce
`a mod n`, repeat; on exit return the sign if `n = 1` else `0`.  Each
pass strictly decreases `a`, so `a + 1` is ample fuel. -/
def legOuter : Nat → Nat → Nat → Int → Option Int
  | 0, a, n, res => if a = 0 then some (if n = 1 then res else 0) else none
  | fuel + 1, a, n, res =>
    if a = 0 then some (if n = 1 then res else 0)
    else
      match legStrip a a n res with
      | none => none
      | some (a1, res1) =>
        legOuter fuel (n % a1) a1
          (if n % 4 = 3 ∧ a1 % 4 = 3 then -res1 else res1)

/-- `legendre_symbol_u64` from `solovay_strassen.rs` (lines 149–197). -/
def legendre_symbol_u64 (a n : Nat) : Option Int := legOuter (a + 1) a n 1

/-- One Solovay–Strassen round (`solovay_strassen.rs`, lines 220–259):
compute the Legendre symbol `x` of the drawn witness, then compare
`modpow(a, (n-1)/2, n)` against the residue demanded by `x`.  The
`match` arms appear in source order `-1, 0, 1, _`; the final arm is
`unreachable!()` (`none`). -/
def ssRound (n nm1 exp a : Nat) : Option Bool := do
  let x ← legendre_symbol_u64 a n
  if x = -1 then do
    let r2 ← modpow a exp n
    some (decide (nm1 = r2))
  else if x = 0 then some false
  else if x = 1 then do
    let r2 ← modpow a exp n
    some (decide (1 = r2))
  else none

/-- The `for _ in 0..k` round loop of `solovay_strassen_primality_test_u64`;
round `i` examines `draws i`. -/
def ssLoop (n nm1 exp : Nat) (draws : Nat → Nat) : Nat → Nat → Option Primality
  | _, 0 => some Primality.ProbablyPrime
  | i, rem + 1 => do
    let pass ← ssRound n nm1 exp (draws i)
    if pass then ssLoop n nm1 exp draws (i + 1) rem
    else some Primality.Composite

/-- `solovay_strassen_primality_test_u64` from `solovay_strassen.rs`,
parameterized by the sequence of random draws. -/
def solovay_strassen_primality_test_u64 (n k : Nat) (draws : Nat → Nat) :
    Option Primality :=
  if n = 0 ∨ n = 1 then some Primality.ZeroOrOne
  else if n = 2 ∨ n = 3 ∨ n = 5 then some Primality.ProbablyPrime
  else ssLoop n (n - 1) ((n - 1) / 2) draws 0 k

/-- Claim C4's description of a failing round: the Legendre symbol is `0`,
or it is `±1` and the Euler-criterion power disagrees with the demanded
residue. -/
def ssFails (n a : Nat) : Prop :=
  jacobiSym a n = 0 ∨
  (jacobiSym a n = 1 ∧ a ^ ((n - 1) / 2) % n ≠ 1) ∨
  (jacobiSym a n = -1 ∧ a ^ ((n - 1) / 2) % n ≠ n - 1)

/-- Modelled from the spec: the injected randomness capability, called
with bounds `(lo, hi)`, produces a uniformly distributed integer in the
closed range `[lo, hi]`.  The probabilistic Miller–Rabin test requests
`(2, n - 2)` (`miller_rabin.rs`, line 147); a draw sequence is admissible
when every draw obeys that contract. -/
def mrDrawAdmissible (n : Nat) (draws : Nat → Nat) : Prop :=
  ∀ i, 2 ≤ draws i ∧ draws i ≤ n - 2

/-- Modelled from the spec: the Solovay–Strassen test requests bounds
`(2, n - 1)` (`solovay_strassen.rs`, line 222) from the same capability. -/
def ssDrawAdmissible (n : Nat) (draws : Nat → Nat) : Prop :=
  ∀ i, 2 ≤ draws i ∧ draws i ≤ n - 1

/-- Witness `a` is examined by the probabilistic Miller–Rabin run: some
round `i < k` draws it, and every earlier round passed (so round `i` is
reached before any `Composite` return). -/
def mrExamines (n k : Nat) (draws : Nat → Nat) (a : Nat) : Prop :=
  ∃ i, i < k ∧ draws i = a ∧
    ∀ j, j < i → mrRoundPassBig n (n - 1) (stripTwos (n - 1)).1
      (stripTwos (n - 1)).2 (draws j) = true

/-- Witness `a` is examined by the Solovay–Strassen run. -/
def ssExamines (n k : Nat) (draws : Nat → Nat) (a : Nat) : Prop :=
  ∃ i, i < k ∧ draws i = a ∧
    ∀ j, j < i → ssRound n (n - 1) ((n - 1) / 2) (draws j) = some true

/-! ## Claim theorems -/

/-! ## Theorems -/

theorem modmul_u64_eq {a b m : Nat} (hm : 1 ≤ m) (hmu : m ≤ U64_MAX + 1) :
    modmul_u64 a b m = some (a * b % m) := by
  unfold modmul_u64
  rw [if_neg (show ¬ m = 0 by omega)]
  by_cases h : a * b ≤ U64_MAX
  · rw [if_pos h]
  · have hlt : a * b % m < m := Nat.mod_lt _ (by omega)
    rw [if_neg h, if_pos (by omega)]

theorem modpowLoop_eq {m : Nat} (hm : 1 ≤ m) (hmu : m ≤ U64_MAX + 1) :
    ∀ fuel e b r, e ≤ fuel → b < m → r < m →
      modpowLoop m fuel b e r = some (r * b ^ e % m) := by
  intro fuel
  induction fuel with
  | zero =>
    intro e b r he _ hr
    have : e = 0 := by omega
    subst this
    simp [modpowLoop, Nat.mod_eq_of_lt hr]
  | succ fuel ih =>
    intro e b r he hb hr
    by_cases he0 : e = 0
    · subst he0
      simp [modpowLoop, Nat.mod_eq_of_lt hr]
    · have hrec : e / 2 ≤ fuel := by omega
      have hb' : b * b % m < m := Nat.mod_lt _ (by omega)
      have hr' : r * b % m < m := Nat.mod_lt _ (by omega)
      have hbb : (b * b % m) ^ (e / 2) ≡ b ^ (2 * (e / 2)) [MOD m] := by
        calc (b * b % m) ^ (e / 2) ≡ (b * b) ^ (e / 2) [MOD m] :=
              (Nat.mod_modEq _ _).pow _
          _ = b ^ (2 * (e / 2)) := by rw [← pow_two, ← pow_mul]
      by_cases hpar : e % 2 = 1
      · simp only [modpowLoop, if_neg he0, if_pos hpar,
          modmul_u64_eq hm hmu, Option.bind_eq_bind, Option.some_bind]
        rw [ih (e / 2) (b * b % m) (r * b % m) hrec hb' hr']
        congr 1
        have : (r * b % m) * (b * b % m) ^ (e / 2) ≡
            r * b ^ e [MOD m] := by
          calc (r * b % m) * (b * b % m) ^ (e / 2)
              ≡ (r * b) * b ^ (2 * (e / 2)) [MOD m] :=
                Nat.ModEq.mul (Nat.mod_modEq _ _) hbb
            _ = r * b ^ (2 * (e / 2) + 1) := by rw [pow_succ]; ring
            _ = r * b ^ e := by rw [show 2 * (e / 2) + 1 = e by omega]
        exact this
      · simp only [modpowLoop, if_neg he0, if_neg hpar,
          modmul_u64_eq hm hmu, Option.bind_eq_bind, Option.some_bind]
        rw [ih (e / 2) (b * b % m) r hrec hb' hr]
        congr 1
        have : r * (b * b % m) ^ (e / 2) ≡ r * b ^ e [MOD m] := by
          calc r * (b * b % m) ^ (e / 2)
              ≡ r * b ^ (2 * (e / 2)) [MOD m] := Nat.ModEq.mul_left r hbb
            _ = r * b ^ e := by rw [show 2 * (e / 2) = e by omega]
        exact this

theorem modpow_eq {base exponent modulus : Nat} (hm : 1 ≤ modulus)
    (hmu : modulus ≤ U64_MAX + 1) :
    modpow base exponent modulus = some (base ^ exponent % modulus) := by
  unfold modpow
  by_cases h1 : modulus = 1
  · subst h1; simp [Nat.mod_one]
  · rw [if_neg h1, if_neg (by omega)]
    rw [modpowLoop_eq hm hmu exponent exponent (base % modulus) 1 le_rfl
      (Nat.mod_lt _ (by omega)) (by omega)]
    rw [one_mul, ← Nat.pow_mod]

/-! ## TrialDivision (`trial_division.rs`) -/

theorem hasSteppedDivisorFrom_shift {n i : Nat} (hii : i * i ≤ n)
    (hdiv : ¬ (n % i = 0 ∨ n % (i + 2) = 0)) (hi : 0 < i) :
    hasSteppedDivisorFrom n i ↔ hasSteppedDivisorFrom n (i + 6) := by
  push_neg at hdiv
  constructor
  · rintro ⟨j, hj1, hj2⟩
    rcases Nat.eq_zero_or_pos j with rfl | hjpos
    · exfalso
      simp only [Nat.mul_zero, Nat.add_zero] at hj1 hj2
      rcases hj2 with h | h
      · exact hdiv.1 ((Nat.dvd_iff_mod_eq_zero).mp h)
      · exact hdiv.2 ((Nat.dvd_iff_mod_eq_zero).mp h)
    · refine ⟨j - 1, ?_, ?_⟩
      · have : i + 6 + 6 * (j - 1) = i + 6 * j := by omega
        rw [this]; exact hj1
      · have : i + 6 + 6 * (j - 1) = i + 6 * j := by omega
        rw [this]; exact hj2
  · rintro ⟨j, hj1, hj2⟩
    refine ⟨j + 1, ?_, ?_⟩
    · have : i + 6 * (j + 1) = i + 6 + 6 * j := by omega
      rw [this]; exact hj1
    · have : i + 6 * (j + 1) = i + 6 + 6 * j := by omega
      rw [this]; exact hj2

theorem tdLoopChecked_eq (cap n : Nat)
    (hcap : ∀ i, i % 2 = 1 → i * i ≤ n → (i + 6) * (i + 6) ≤ cap) :
    ∀ fuel i, i % 2 = 1 → i * i ≤ cap →
      (∃ t, t < fuel ∧ n < (i + 6 * t) * (i + 6 * t)) →
      tdLoopChecked cap n fuel i =
        some (if hasSteppedDivisorFrom n i then Primality.Composite
              else Primality.Prime) := by
  intro fuel
  induction fuel with
  | zero =>
    rintro i _ _ ⟨t, ht, _⟩
    omega
  | succ fuel ih =>
    rintro i hodd hicap ⟨t, ht, htn⟩
    simp only [tdLoopChecked, if_neg (Nat.not_lt.mpr hicap)]
    by_cases hbreak : n < i * i
    · rw [if_pos hbreak, if_neg]
      rintro ⟨j, hj1, _⟩
      have : i * i ≤ (i + 6 * j) * (i + 6 * j) := by nlinarith
      omega
    · rw [if_neg hbreak]
      have hii : i * i ≤ n := by omega
      by_cases hdiv : n % i = 0 ∨ n % (i + 2) = 0
      · rw [if_pos hdiv, if_pos]
        refine ⟨0, by simpa using hii, ?_⟩
        simp only [Nat.mul_zero, Nat.add_zero]
        rcases hdiv with h | h
        · exact Or.inl (Nat.dvd_of_mod_eq_zero h)
        · exact Or.inr (Nat.dvd_of_mod_eq_zero h)
      · rw [if_neg hdiv]
        have hipos : 0 < i := by omega
        have hstep := hasSteppedDivisorFrom_shift hii hdiv hipos
        have htpos : 0 < t := by
          rcases Nat.eq_zero_or_pos t with rfl | h
          · simp only [Nat.mul_zero, Nat.add_zero] at htn; omega
          · exact h
        rw [ih (i + 6) (by omega) (hcap i hodd hii) ⟨t - 1, by omega, by
          rw [show i + 6 + 6 * (t - 1) = i + 6 * t by omega]; exact htn⟩]
        exact congrArg some (if_congr (Iff.symm hstep) rfl rfl)

theorem tdLoopNat_eq (n : Nat) :
    ∀ fuel i, 0 < i →
      (∃ t, t < fuel ∧ n < (i + 6 * t) * (i + 6 * t)) →
      tdLoopNat n fuel i =
        some (if hasSteppedDivisorFrom n i then Primality.Composite
              else Primality.Prime) := by
  intro fuel
  induction fuel with
  | zero =>
    rintro i _ ⟨t, ht, _⟩
    omega
  | succ fuel ih =>
    rintro i hipos ⟨t, ht, htn⟩
    simp only [tdLoopNat]
    by_cases hbreak : n < i * i
    · rw [if_pos hbreak, if_neg]
      rintro ⟨j, hj1, _⟩
      have : i * i ≤ (i + 6 * j) * (i + 6 * j) := by nlinarith
      omega
    · rw [if_neg hbreak]
      have hii : i * i ≤ n := by omega
      by_cases hdiv : n % i = 0 ∨ n % (i + 2) = 0
      · rw [if_pos hdiv, if_pos]
        refine ⟨0, by simpa using hii, ?_⟩
        simp only [Nat.mul_zero, Nat.add_zero]
        rcases hdiv with h | h
        · exact Or.inl (Nat.dvd_of_mod_eq_zero h)
        · exact Or.inr (Nat.dvd_of_mod_eq_zero h)
      · rw [if_neg hdiv]
        have hstep := hasSteppedDivisorFrom_shift hii hdiv hipos
        have htpos : 0 < t := by
          rcases Nat.eq_zero_or_pos t with rfl | h
          · simp only [Nat.mul_zero, Nat.add_zero] at htn; omega
          · exact h
        rw [ih (i + 6) (by omega) ⟨t - 1, by omega, by
          rw [show i + 6 + 6 * (t - 1) = i + 6 * t by omega]; exact htn⟩]
        exact congrArg some (if_congr (Iff.symm hstep) rfl rfl)

/-- Below `(2^32 - 5)^2` every square the 64-bit divisor loop evaluates
fits in `u64`, and fuel `n` is ample, so `trial_division_u64` matches the
specification-side classification. -/
theorem trial_division_u64_eq {n : Nat} (hn : n < 18446744030759878681) :
    trial_division_u64 n = some (tdSpec n) := by
  unfold trial_division_u64 tdSpec
  by_cases h01 : n = 0 ∨ n = 1
  · rw [if_pos h01, if_pos h01]
  · rw [if_neg h01, if_neg h01]
    by_cases hmem : n ∈ primes25
    · rw [if_pos hmem, if_pos hmem]
    · rw [if_neg hmem, if_neg hmem]
      by_cases h23 : n % 2 = 0 ∨ n % 3 = 0
      · rw [if_pos h23, if_pos (by
          rcases h23 with h | h
          · exact Or.inl (Nat.dvd_of_mod_eq_zero h)
          · exact Or.inr (Nat.dvd_of_mod_eq_zero h))]
      · rw [if_neg h23, if_neg (by
          push_neg at h23
          rintro (h | h)
          · exact h23.1 ((Nat.dvd_iff_mod_eq_zero).mp h)
          · exact h23.2 ((Nat.dvd_iff_mod_eq_zero).mp h))]
        refine tdLoopChecked_eq U64_MAX n ?_ n 5 (by norm_num)
          (by norm_num [U64_MAX]) ⟨n - 1, by omega, by
            calc n < (n + 1) * 1 := by omega
              _ ≤ (5 + 6 * (n - 1)) * (5 + 6 * (n - 1)) :=
                  Nat.mul_le_mul (by omega) (by omega)⟩
        intro i hodd hii
        have hi1 : i < 4294967291 := by nlinarith
        have hi2 : i + 6 ≤ 4294967295 := by omega
        calc (i + 6) * (i + 6) ≤ 4294967295 * 4294967295 :=
              Nat.mul_le_mul hi2 hi2
          _ ≤ U64_MAX := by norm_num [U64_MAX]

/-- Same statement one width up: below `(2^64 - 5)^2` the 128-bit loop's
squares fit in `u128`. -/
theorem trial_division_u128_eq {n : Nat} (h64 : U64_MAX < n)
    (hn : n < 340282366920938463278907166694672695321) :
    trial_division_u128 n = some (tdSpecLarge n) := by
  unfold trial_division_u128 tdSpecLarge
  rw [if_neg (by omega)]
  by_cases h23 : n % 2 = 0 ∨ n % 3 = 0
  · rw [if_pos h23, if_pos (by
      rcases h23 with h | h
      · exact Or.inl (Nat.dvd_of_mod_eq_zero h)
      · exact Or.inr (Nat.dvd_of_mod_eq_zero h))]
  · rw [if_neg h23, if_neg (by
      push_neg at h23
      rintro (h | h)
      · exact h23.1 ((Nat.dvd_iff_mod_eq_zero).mp h)
      · exact h23.2 ((Nat.dvd_iff_mod_eq_zero).mp h))]
    refine tdLoopChecked_eq U128_MAX n ?_ n 5 (by norm_num)
      (by norm_num [U128_MAX]) ⟨n - 1, by omega, by
            calc n < (n + 1) * 1 := by omega
              _ ≤ (5 + 6 * (n - 1)) * (5 + 6 * (n - 1)) :=
                  Nat.mul_le_mul (by omega) (by omega)⟩
    intro i hodd hii
    have hi1 : i < 18446744073709551611 := by nlinarith
    have hi2 : i + 6 ≤ 18446744073709551615 := by omega
    calc (i + 6) * (i + 6) ≤ 18446744073709551615 * 18446744073709551615 :=
          Nat.mul_le_mul hi2 hi2
      _ ≤ U128_MAX := by norm_num [U128_MAX]

/-- Above `u128::MAX` the arbitrary-precision loop (exact arithmetic)
always matches the specification-side classification. -/
theorem trial_division_biguint_eq {n : Nat} (h128 : U128_MAX < n) :
    trial_division_biguint n = some (tdSpecLarge n) := by
  unfold trial_division_biguint tdSpecLarge
  rw [if_neg (by omega)]
  by_cases h23 : n % 2 = 0 ∨ n % 3 = 0
  · rw [if_pos h23, if_pos (by
      rcases h23 with h | h
      · exact Or.inl (Nat.dvd_of_mod_eq_zero h)
      · exact Or.inr (Nat.dvd_of_mod_eq_zero h))]
  · rw [if_neg h23, if_neg (by
      push_neg at h23
      rintro (h | h)
      · exact h23.1 ((Nat.dvd_iff_mod_eq_zero).mp h)
      · exact h23.2 ((Nat.dvd_iff_mod_eq_zero).mp h))]
    exact tdLoopNat_eq n n 5 (by norm_num)
      ⟨n - 1, by omega, by
            calc n < (n + 1) * 1 := by omega
              _ ≤ (5 + 6 * (n - 1)) * (5 + 6 * (n - 1)) :=
                  Nat.mul_le_mul (by omega) (by omega)⟩

/-- Running the checked divisor loop for `k` clean rounds (square in range,
below the break bound, no divisor found) just advances `i` by `6k`. -/
theorem tdLoopChecked_steps (cap n : Nat) :
    ∀ k fuel i,
      (∀ j, j < k → (i + 6 * j) * (i + 6 * j) ≤ cap ∧
        (i + 6 * j) * (i + 6 * j) ≤ n ∧
        ¬ n % (i + 6 * j) = 0 ∧ ¬ n % (i + 6 * j + 2) = 0) →
      tdLoopChecked cap n (fuel + k) i = tdLoopChecked cap n fuel (i + 6 * k) := by
  intro k
  induction k with
  | zero => intro fuel i _; rfl
  | succ k ih =>
    intro fuel i h
    have h0 := h 0 (by omega)
    simp only [Nat.mul_zero, Nat.add_zero] at h0
    have : fuel + (k + 1) = (fuel + k) + 1 := by omega
    rw [this]
    simp only [tdLoopChecked, if_neg (Nat.not_lt.mpr h0.1),
      if_neg (Nat.not_lt.mpr h0.2.1)]
    rw [if_neg (show ¬ (n % i = 0 ∨ n % (i + 2) = 0) by tauto)]
    rw [ih fuel (i + 6) (by
      intro j hj
      have := h (j + 1) (by omega)
      rw [show i + 6 * (j + 1) = i + 6 + 6 * j by omega] at this
      exact this)]
    rw [show i + 6 + 6 * k = i + 6 * (k + 1) by omega]

/-- If the square at the current candidate exceeds the width's maximal
value, the checked loop aborts (models the `i.pow(2)` overflow). -/
theorem tdLoopChecked_overflow {cap n fuel i : Nat} (hfuel : 0 < fuel)
    (hover : cap < i * i) : tdLoopChecked cap n fuel i = none := by
  cases fuel with
  | zero => omega
  | succ fuel => simp [tdLoopChecked, if_pos hover]

/-! ## Auxiliary: fast modular exponentiation over `Nat` and Lucas
certificates.  `powMod` is proof infrastructure (kernel-evaluable binary
exponentiation) used to certify the primality of the concrete inputs that
appear in counterexamples; it is not part of the source embedding. -/

theorem powModLoop_eq {m : Nat} (hm : 0 < m) :
    ∀ fuel e b r, e ≤ fuel → r < m →
      powModLoop m fuel b e r = r * b ^ e % m := by
  intro fuel
  induction fuel with
  | zero =>
    intro e b r he hr
    have : e = 0 := by omega
    subst this
    simp [powModLoop, Nat.mod_eq_of_lt hr]
  | succ fuel ih =>
    intro e b r he hr
    by_cases he0 : e = 0
    · subst he0
      simp [powModLoop, Nat.mod_eq_of_lt hr]
    · simp only [powModLoop, if_neg he0]
      have hbb : (b * b % m) ^ (e / 2) ≡ b ^ (2 * (e / 2)) [MOD m] := by
        calc (b * b % m) ^ (e / 2) ≡ (b * b) ^ (e / 2) [MOD m] :=
              (Nat.mod_modEq _ _).pow _
          _ = b ^ (2 * (e / 2)) := by rw [← pow_two, ← pow_mul]
      by_cases hpar : e % 2 = 1
      · rw [if_pos hpar, ih (e / 2) _ _ (by omega) (Nat.mod_lt _ hm)]
        have : (r * b % m) * (b * b % m) ^ (e / 2) ≡ r * b ^ e [MOD m] := by
          calc (r * b % m) * (b * b % m) ^ (e / 2)
              ≡ (r * b) * b ^ (2 * (e / 2)) [MOD m] :=
                Nat.ModEq.mul (Nat.mod_modEq _ _) hbb
            _ = r * b ^ (2 * (e / 2) + 1) := by rw [pow_succ]; ring
            _ = r * b ^ e := by rw [show 2 * (e / 2) + 1 = e by omega]
        exact this
      · rw [if_neg hpar, ih (e / 2) _ _ (by omega) hr]
        have : r * (b * b % m) ^ (e / 2) ≡ r * b ^ e [MOD m] := by
          calc r * (b * b % m) ^ (e / 2)
              ≡ r * b ^ (2 * (e / 2)) [MOD m] := Nat.ModEq.mul_left r hbb
            _ = r * b ^ e := by rw [show 2 * (e / 2) = e by omega]
        exact this

theorem powMod_eq (b e m : Nat) (hm : 0 < m) : powMod b e m = b ^ e % m := by
  unfold powMod
  rw [powModLoop_eq hm e e (b % m) (1 % m) le_rfl (Nat.mod_lt _ hm)]
  have : (1 % m) * (b % m) ^ e ≡ 1 * b ^ e [MOD m] :=
    Nat.ModEq.mul (Nat.mod_modEq _ _) ((Nat.mod_modEq _ _).pow _)
  calc (1 % m) * (b % m) ^ e % m = 1 * b ^ e % m := this
    _ = b ^ e % m := by rw [one_mul]

theorem powMod_cast {n : Nat} (hn : 1 < n) (b e : Nat) :
    ((b : ZMod n)) ^ e = ((powMod b e n : Nat) : ZMod n) := by
  rw [powMod_eq b e n (by omega), ZMod.natCast_mod, Nat.cast_pow]

theorem cast_ne_one_of_lt {n c : Nat} (hn : 1 < n) (hc : c < n) (h1 : c ≠ 1) :
    ((c : Nat) : ZMod n) ≠ 1 := by
  intro h
  have hv := ZMod.val_cast_of_lt (n := n) hc
  rw [h, ZMod.val_one_eq_one_mod, Nat.mod_eq_of_lt hn] at hv
  omega

/-- Lucas primality certificate driven by `powMod` computations: `g` has
order `p - 1` modulo `p`, witnessed by one coprime-power check per prime
factor of `p - 1`. -/
theorem lucasCertificate (p g : Nat) (hp1 : 1 < p)
    (hord : powMod g (p - 1) p = 1)
    (qs : List Nat)
    (hcover : ∀ q, Nat.Prime q → q ∣ (p - 1) → q ∈ qs)
    (hne : ∀ q ∈ qs, powMod g ((p - 1) / q) p ≠ 1) :
    Nat.Prime p := by
  refine lucas_primality p (g : ZMod p) ?_ ?_
  · rw [powMod_cast hp1, hord, Nat.cast_one]
  · intro q hq hqdvd hcontra
    refine hne q (hcover q hq hqdvd) ?_
    have hlt : powMod g ((p - 1) / q) p < p := by
      rw [powMod_eq _ _ _ (by omega)]
      exact Nat.mod_lt _ (by omega)
    by_contra hne1
    exact cast_ne_one_of_lt hp1 hlt hne1 (by rw [← powMod_cast hp1]; exact hcontra)

/-- `2^64 - 2^32 + 1` is prime (Lucas certificate with primitive root `7`;
`P - 1 = 2^32 · 3 · 5 · 17 · 257 · 65537`). -/
theorem goldilocks_prime : Nat.Prime 18446744069414584321 := by
  refine lucasCertificate _ 7 (by norm_num) (by decide)
    [2, 3, 5, 17, 257, 65537] ?_ ?_
  · intro q hq hdvd
    have h : q ∣ ([2, 2, 2, 2, 2, 2, 2, 2, 2, 2, 2, 2, 2, 2, 2, 2,
        2, 2, 2, 2, 2, 2, 2, 2, 2, 2, 2, 2, 2, 2, 2, 2,
        3, 5, 17, 257, 65537] : List Nat).prod := by
      rw [show ([2, 2, 2, 2, 2, 2, 2, 2, 2, 2, 2, 2, 2, 2, 2, 2,
        2, 2, 2, 2, 2, 2, 2, 2, 2, 2, 2, 2, 2, 2, 2, 2,
        3, 5, 17, 257, 65537] : List Nat).prod = 18446744069414584321 - 1 by decide]
      exact hdvd
    obtain ⟨a, ha, hqa⟩ := (Nat.Prime.prime hq).dvd_prod_iff.mp h
    fin_cases ha <;>
      first
        | (rw [(Nat.prime_dvd_prime_iff_eq hq (by norm_num)).mp hqa]; decide)
  · intro q hmem
    fin_cases hmem <;> decide

/-- `252986611` (a factor of `2^128 - 676`) is prime, by a small Lucas
certificate (kept shallow: a long trial-division proof term would nest
too deeply). -/
theorem p252986611_prime : Nat.Prime 252986611 := by
  refine lucasCertificate _ 2 (by norm_num) (by decide)
    [2, 3, 5, 73, 331, 349] ?_ ?_
  · intro q hq hdvd
    have h : q ∣ ([2, 3, 5, 73, 331, 349] : List Nat).prod := by
      rw [show ([2, 3, 5, 73, 331, 349] : List Nat).prod =
        252986611 - 1 by decide]
      exact hdvd
    obtain ⟨a, ha, hqa⟩ := (Nat.Prime.prime hq).dvd_prod_iff.mp h
    fin_cases ha <;>
      first
        | (rw [(Nat.prime_dvd_prime_iff_eq hq (by norm_num)).mp hqa]; decide)
  · intro q hmem
    fin_cases hmem <;> decide

/-- `2^128 - 675` is prime (Lucas certificate with primitive root `6`;
all prime factors of `P - 1` are below `2^28`). -/
theorem nearMax128_prime :
    Nat.Prime 340282366920938463463374607431768210781 := by
  refine lucasCertificate _ 6 (by norm_num) (by decide)
    [2, 3, 5, 7, 191, 421, 569, 809, 90679, 252017, 3785993, 252986611] ?_ ?_
  · intro q hq hdvd
    have h : q ∣ ([2, 2, 3, 5, 7, 191, 421, 569, 809, 90679, 252017,
        3785993, 252986611] : List Nat).prod := by
      rw [show ([2, 2, 3, 5, 7, 191, 421, 569, 809, 90679, 252017,
        3785993, 252986611] : List Nat).prod =
        340282366920938463463374607431768210781 - 1 by decide]
      exact hdvd
    obtain ⟨a, ha, hqa⟩ := (Nat.Prime.prime hq).dvd_prod_iff.mp h
    fin_cases ha <;>
      first
        | (rw [(Nat.prime_dvd_prime_iff_eq hq p252986611_prime).mp hqa]; decide)
        | (rw [(Nat.prime_dvd_prime_iff_eq hq (by norm_num)).mp hqa]; decide)
  · intro q hmem
    fin_cases hmem <;> decide

/-! ## MillerRabin (`miller_rabin.rs`, lines 49–169) -/

theorem stripTwosF_spec :
    ∀ fuel d r, 0 < d → d ≤ fuel →
      0 < (stripTwosF fuel d r).1 ∧ (stripTwosF fuel d r).1 % 2 = 1 ∧
      r ≤ (stripTwosF fuel d r).2 ∧
      2 ^ ((stripTwosF fuel d r).2 - r) * (stripTwosF fuel d r).1 = d := by
  intro fuel
  induction fuel with
  | zero => intro d r hd hdf; omega
  | succ fuel ih =>
    intro d r hd hdf
    by_cases h : d % 2 = 0 ∧ d ≠ 0
    · simp only [stripTwosF, if_pos h]
      have hrec := ih (d / 2) (r + 1) (by omega) (by omega)
      refine ⟨hrec.1, hrec.2.1, by omega, ?_⟩
      have h2 : 2 ^ ((stripTwosF fuel (d / 2) (r + 1)).2 - r) =
          2 * 2 ^ ((stripTwosF fuel (d / 2) (r + 1)).2 - (r + 1)) := by
        rw [← pow_succ']
        congr 1
        omega
      rw [h2, mul_assoc, hrec.2.2.2]
      omega
    · simp only [stripTwosF, if_neg h]
      refine ⟨hd, by omega, le_rfl, by simp⟩

theorem stripTwos_spec {d : Nat} (hd : 0 < d) :
    0 < (stripTwos d).1 ∧ (stripTwos d).1 % 2 = 1 ∧
    2 ^ (stripTwos d).2 * (stripTwos d).1 = d := by
  have h := stripTwosF_spec d d 0 hd le_rfl
  exact ⟨h.1, h.2.1, by simpa using h.2.2.2⟩

theorem natCast_inj_of_lt {n c e : Nat} (hc : c < n) (he : e < n)
    (h : ((c : Nat) : ZMod n) = ((e : Nat) : ZMod n)) : c = e := by
  haveI : NeZero n := ⟨by omega⟩
  have h1 := ZMod.val_cast_of_lt hc
  have h2 := ZMod.val_cast_of_lt he
  rw [h] at h1
  omega

theorem natCast_pred_eq_neg_one {n : Nat} (hn : 1 ≤ n) :
    ((n - 1 : Nat) : ZMod n) = -1 := by
  have : ((n - 1 : Nat) : ZMod n) = (n : ZMod n) - 1 := by
    have := Nat.cast_sub (R := ZMod n) hn
    simpa using this
  rw [this, ZMod.natCast_self, zero_sub]

/-- The mathematical core: for a prime `n` and a base `a` not divisible by
`n`, writing `n - 1 = 2^r · d`, either `a^d ≡ 1 (mod n)` or some
intermediate power `a^(2^j · d)` with `j < r` is `≡ -1 (mod n)`. -/
theorem mr_sequence {n : Nat} (hp : Nat.Prime n) (hn : 2 < n) {d r : Nat}
    (hfact : n - 1 = 2 ^ r * d) {a : Nat} (ha : ¬ n ∣ a) :
    a ^ d % n = 1 ∨ ∃ j, j < r ∧ a ^ (2 ^ j * d) % n = n - 1 := by
  haveI : Fact (Nat.Prime n) := ⟨hp⟩
  have hA0 : ((a : Nat) : ZMod n) ≠ 0 := by
    intro h0
    exact ha ((ZMod.natCast_zmod_eq_zero_iff_dvd a n).mp h0)
  have hfermat : ((a : Nat) : ZMod n) ^ (n - 1) = 1 :=
    ZMod.pow_card_sub_one_eq_one hA0
  have key : ∀ j, j ≤ r → ((a : Nat) : ZMod n) ^ (2 ^ j * d) = 1 →
      ((a : Nat) : ZMod n) ^ d = 1 ∨
        ∃ i, i < j ∧ ((a : Nat) : ZMod n) ^ (2 ^ i * d) = -1 := by
    intro j
    induction j with
    | zero =>
      intro _ h1
      left
      simpa using h1
    | succ j ih =>
      intro hjr h1
      have hsq : ((a : Nat) : ZMod n) ^ (2 ^ (j + 1) * d) =
          (((a : Nat) : ZMod n) ^ (2 ^ j * d)) *
            (((a : Nat) : ZMod n) ^ (2 ^ j * d)) := by
        rw [← pow_add]
        congr 1
        rw [pow_succ]
        ring
      rw [hsq] at h1
      rcases mul_self_eq_one_iff.mp h1 with h | h
      · rcases ih (by omega) h with h' | ⟨i, hi, h'⟩
        · exact Or.inl h'
        · exact Or.inr ⟨i, by omega, h'⟩
      · exact Or.inr ⟨j, by omega, h⟩
  have hr1 : ((a : Nat) : ZMod n) ^ (2 ^ r * d) = 1 := by
    rw [← hfact]
    exact hfermat
  rcases key r le_rfl hr1 with h | ⟨j, hj, h⟩
  · left
    have hcast : ((a ^ d % n : Nat) : ZMod n) = ((1 : Nat) : ZMod n) := by
      rw [ZMod.natCast_mod, Nat.cast_pow, Nat.cast_one]
      exact h
    exact natCast_inj_of_lt (Nat.mod_lt _ (by omega)) (by omega) hcast
  · right
    refine ⟨j, hj, ?_⟩
    have hcast : ((a ^ (2 ^ j * d) % n : Nat) : ZMod n) =
        ((n - 1 : Nat) : ZMod n) := by
      rw [ZMod.natCast_mod, Nat.cast_pow, natCast_pred_eq_neg_one (by omega)]
      exact h
    exact natCast_inj_of_lt (Nat.mod_lt _ (by omega)) (by omega) hcast

theorem mrSquaresBig_pass {n nm1 : Nat} (hn : 0 < n) :
    ∀ count (a e x : Nat), x = a ^ e % n →
      (∃ s, 1 ≤ s ∧ s ≤ count ∧ a ^ (2 ^ s * e) % n = nm1) →
      mrSquaresBig n nm1 count x = true := by
  intro count
  induction count with
  | zero =>
    rintro a e x _ ⟨s, hs1, hs2, _⟩
    omega
  | succ count ih =>
    rintro a e x hx ⟨s, hs1, hs2, hs3⟩
    have hx' : bigModpow x 2 n = a ^ (2 * e) % n := by
      unfold bigModpow
      rw [hx]
      calc (a ^ e % n) ^ 2 % n = (a ^ e) ^ 2 % n := by
            conv_lhs => rw [Nat.pow_mod, Nat.mod_mod_of_dvd _ dvd_rfl, ← Nat.pow_mod]
        _ = a ^ (2 * e) % n := by rw [← pow_mul, mul_comm e 2]
    simp only [mrSquaresBig]
    rcases Nat.eq_or_lt_of_le hs1 with h1 | h1
    · have hhit : bigModpow x 2 n = nm1 := by
        rw [hx', show 2 * e = 2 ^ s * e by rw [← h1]; norm_num]
        exact hs3
      rw [hhit, if_pos rfl]
    · by_cases hhit : bigModpow x 2 n = nm1
      · rw [if_pos hhit]
      · rw [if_neg hhit]
        obtain ⟨t, rfl⟩ : ∃ t, s = t + 1 := ⟨s - 1, by omega⟩
        refine ih a (2 * e) _ hx' ⟨t, by omega, by omega, ?_⟩
        rw [show 2 ^ t * (2 * e) = 2 ^ (t + 1) * e by rw [pow_succ]; ring]
        exact hs3

/-- On a prime modulus every probabilistic Miller–Rabin round passes. -/
theorem mrRoundPassBig_prime {n d r : Nat} (hp : Nat.Prime n) (hn : 2 < n)
    (hfact : n - 1 = 2 ^ r * d) {a : Nat} (ha : ¬ n ∣ a) :
    mrRoundPassBig n (n - 1) d r a = true := by
  unfold mrRoundPassBig
  rcases mr_sequence hp hn hfact ha with h1 | ⟨j, hj, hj2⟩
  · have : bigModpow a d n = 1 := h1
    rw [this]
    simp
  · rcases Nat.eq_zero_or_pos j with rfl | hjpos
    · have : bigModpow a d n = n - 1 := by
        unfold bigModpow
        simpa using hj2
      rw [this]
      simp
    · by_cases hinit : bigModpow a d n = 1 ∨ bigModpow a d n = n - 1
      · rw [if_pos hinit]
      · rw [if_neg hinit]
        exact mrSquaresBig_pass (by omega) r a d _ rfl ⟨j, by omega, by omega, hj2⟩

theorem mrRoundsBig_prime {n d r : Nat} (hp : Nat.Prime n) (hn : 2 < n)
    (hfact : n - 1 = 2 ^ r * d) (draws : Nat → Nat)
    (hdraws : ∀ i, ¬ n ∣ draws i) :
    ∀ rem i, mrRoundsBig n (n - 1) d r draws i rem = Primality.ProbablyPrime := by
  intro rem
  induction rem with
  | zero => intro i; rfl
  | succ rem ih =>
    intro i
    simp only [mrRoundsBig, mrRoundPassBig_prime hp hn hfact (hdraws i), if_true]
    exact ih (i + 1)

/-- On a prime input, the probabilistic Miller–Rabin test returns
`ProbablyPrime` regardless of the admissible random draws. -/
theorem miller_rabin_biguint_prime {n k : Nat} {draws : Nat → Nat}
    (hp : Nat.Prime n) (hn : 4 < n)
    (hdraws : ∀ i, 2 ≤ draws i ∧ draws i ≤ n - 2) :
    miller_rabin_primality_test_biguint n k draws = Primality.ProbablyPrime := by
  unfold miller_rabin_primality_test_biguint
  have hfact : n - 1 = 2 ^ (stripTwos (n - 1)).2 * (stripTwos (n - 1)).1 :=
    ((stripTwos_spec (by omega)).2.2).symm
  refine mrRoundsBig_prime hp (by omega) hfact draws ?_ k 0
  intro i hdvd
  have h1 := (hdraws i).1
  have h2 := (hdraws i).2
  have := Nat.le_of_dvd (by omega) hdvd
  omega

theorem mrSquaresU64_eq_big {n nm1 : Nat} (hn : 1 ≤ n) (hnu : n ≤ U64_MAX + 1) :
    ∀ count x, mrSquaresU64 n nm1 count x = some (mrSquaresBig n nm1 count x) := by
  intro count
  induction count with
  | zero => intro x; rfl
  | succ count ih =>
    intro x
    simp only [mrSquaresU64, mrSquaresBig, bigModpow, modpow_eq hn hnu,
      Option.bind_eq_bind, Option.some_bind]
    by_cases h : x ^ 2 % n = nm1
    · rw [if_pos h, if_pos h]
    · rw [if_neg h, if_neg h, ih]

theorem mrWitnessU64_eq_big {n nm1 d r a : Nat} (hn : 1 ≤ n)
    (hnu : n ≤ U64_MAX + 1) :
    mrWitnessU64 n nm1 d r a = some (mrRoundPassBig n nm1 d r a) := by
  unfold mrWitnessU64 mrRoundPassBig
  simp only [bigModpow, modpow_eq hn hnu, Option.bind_eq_bind, Option.some_bind]
  by_cases h : a ^ d % n = 1 ∨ a ^ d % n = nm1
  · rw [if_pos h, if_pos h]
  · rw [if_neg h, if_neg h, mrSquaresU64_eq_big hn hnu]

theorem mrWitnessLoop_prime {n d r : Nat} (hp : Nat.Prime n) (hn : 2 < n)
    (hnu : n ≤ U64_MAX + 1) (hfact : n - 1 = 2 ^ r * d) :
    ∀ ws : List Nat, (∀ a ∈ ws, 0 < a ∧ a < n) →
      mrWitnessLoop n (n - 1) d r ws = some Primality.Prime := by
  intro ws
  induction ws with
  | nil => intro _; rfl
  | cons a ws ih =>
    intro hbound
    have ha := hbound a (List.mem_cons_self a ws)
    have hnd : ¬ n ∣ a := by
      intro hdvd
      have := Nat.le_of_dvd ha.1 hdvd
      omega
    simp only [mrWitnessLoop, mrWitnessU64_eq_big (show 1 ≤ n by omega) hnu,
      Option.bind_eq_bind, Option.some_bind,
      mrRoundPassBig_prime hp hn hfact hnd, if_true]
    exact ih (fun b hb => hbound b (List.mem_cons_of_mem a hb))

/-- For `n > 2`, the witness table always yields a set, and its members
are positive and below `n`. -/
theorem witnessesU64_mem_lt {n : Nat} (h2 : 2 < n) :
    ∃ ws, witnessesU64 n = some ws ∧ ∀ a ∈ ws, 0 < a ∧ a < n := by
  unfold witnessesU64
  rw [if_neg (show ¬ n ≤ 2 by omega)]
  by_cases h1 : n ≤ 2046
  · rw [if_pos h1]
    exact ⟨_, rfl, by intro a ha; fin_cases ha <;> omega⟩
  · rw [if_neg h1]
    by_cases h2 : n ≤ 1373652
    · rw [if_pos h2]
      exact ⟨_, rfl, by intro a ha; fin_cases ha <;> omega⟩
    · rw [if_neg h2]
      by_cases h3 : n ≤ 9080190
      · rw [if_pos h3]
        exact ⟨_, rfl, by intro a ha; fin_cases ha <;> omega⟩
      · rw [if_neg h3]
        by_cases h4 : n ≤ 25326000
        · rw [if_pos h4]
          exact ⟨_, rfl, by intro a ha; fin_cases ha <;> omega⟩
        · rw [if_neg h4]
          by_cases h5 : n ≤ 3215031750
          · rw [if_pos h5]
            exact ⟨_, rfl, by intro a ha; fin_cases ha <;> omega⟩
          · rw [if_neg h5]
            by_cases h6 : n ≤ 4759123140
            · rw [if_pos h6]
              exact ⟨_, rfl, by intro a ha; fin_cases ha <;> omega⟩
            · rw [if_neg h6]
              by_cases h7 : n ≤ 1122004669632
              · rw [if_pos h7]
                exact ⟨_, rfl, by intro a ha; fin_cases ha <;> omega⟩
              · rw [if_neg h7]
                by_cases h8 : n ≤ 2152302898746
                · rw [if_pos h8]
                  exact ⟨_, rfl, by intro a ha; fin_cases ha <;> omega⟩
                · rw [if_neg h8]
                  by_cases h9 : n ≤ 3474749660382
                  · rw [if_pos h9]
                    exact ⟨_, rfl, by intro a ha; fin_cases ha <;> omega⟩
                  · rw [if_neg h9]
                    by_cases h10 : n ≤ 341550071728320
                    · rw [if_pos h10]
                      exact ⟨_, rfl, by intro a ha; fin_cases ha <;> omega⟩
                    · rw [if_neg h10]
                      by_cases h11 : n ≤ 3825123056546413050
                      · rw [if_pos h11]
                        exact ⟨_, rfl, by intro a ha; fin_cases ha <;> omega⟩
                      · rw [if_neg h11]
                        exact ⟨_, rfl, by intro a ha; fin_cases ha <;> omega⟩

/-- Completeness of the deterministic 64-bit Miller–Rabin test: a prime
input (in range) is always classified `Prime`. -/
theorem miller_rabin_u64_complete {n : Nat} (h2 : 2 < n) (hnu : n ≤ U64_MAX)
    (hp : Nat.Prime n) :
    miller_rabin_primality_test_u64 n = some Primality.Prime := by
  unfold miller_rabin_primality_test_u64
  obtain ⟨ws, hws, hbound⟩ := witnessesU64_mem_lt h2
  rw [hws]
  simp only [Option.bind_eq_bind, Option.some_bind]
  have hfact : n - 1 = 2 ^ (stripTwos (n - 1)).2 * (stripTwos (n - 1)).1 :=
    ((stripTwos_spec (by omega)).2.2).symm
  exact mrWitnessLoop_prime hp h2 (by omega) hfact ws hbound

theorem witnessesU64_eq_lookup {n : Nat} (h2 : 2 < n) :
    witnessesU64 n = some (specWitnessLookup n) := by
  unfold witnessesU64 specWitnessLookup specWitnessTable
  rw [if_neg (show ¬ n ≤ 2 by omega)]
  by_cases h1 : n ≤ 2046
  · rw [if_pos h1]
    simp [List.find?, h1]
  · rw [if_neg h1]
    by_cases h2 : n ≤ 1373652
    · rw [if_pos h2]
      simp [List.find?, h1, h2]
    · rw [if_neg h2]
      by_cases h3 : n ≤ 9080190
      · rw [if_pos h3]
        simp [List.find?, h1, h2, h3]
      · rw [if_neg h3]
        by_cases h4 : n ≤ 25326000
        · rw [if_pos h4]
          simp [List.find?, h1, h2, h3, h4]
        · rw [if_neg h4]
          by_cases h5 : n ≤ 3215031750
          · rw [if_pos h5]
            simp [List.find?, h1, h2, h3, h4, h5]
          · rw [if_neg h5]
            by_cases h6 : n ≤ 4759123140
            · rw [if_pos h6]
              simp [List.find?, h1, h2, h3, h4, h5, h6]
            · rw [if_neg h6]
              by_cases h7 : n ≤ 1122004669632
              · rw [if_pos h7]
                simp [List.find?, h1, h2, h3, h4, h5, h6, h7]
              · rw [if_neg h7]
                by_cases h8 : n ≤ 2152302898746
                · rw [if_pos h8]
                  simp [List.find?, h1, h2, h3, h4, h5, h6, h7, h8]
                · rw [if_neg h8]
                  by_cases h9 : n ≤ 3474749660382
                  · rw [if_pos h9]
                    simp [List.find?, h1, h2, h3, h4, h5, h6, h7, h8, h9]
                  · rw [if_neg h9]
                    by_cases h10 : n ≤ 341550071728320
                    · rw [if_pos h10]
                      simp [List.find?, h1, h2, h3, h4, h5, h6, h7, h8, h9, h10]
                    · rw [if_neg h10]
                      by_cases h11 : n ≤ 3825123056546413050
                      · rw [if_pos h11]
                        simp [List.find?, h1, h2, h3, h4, h5, h6, h7, h8, h9, h10, h11]
                      · rw [if_neg h11]
                        simp [List.find?, h1, h2, h3, h4, h5, h6, h7, h8, h9, h10, h11]

/-! ## LegendreSymbol and SolovayStrassen (`solovay_strassen.rs`) -/

theorem legStrip_spec {n : Nat} (hodd : Odd n) :
    ∀ fuel a res, 0 < a → a ≤ fuel → (res = 1 ∨ res = -1) →
      ∃ a1 res1, legStrip fuel a n res = some (a1, res1) ∧
        a1 % 2 = 1 ∧ 0 < a1 ∧ a1 ≤ a ∧ (res1 = 1 ∨ res1 = -1) ∧
        res1 * jacobiSym a1 n = res * jacobiSym a n := by
  have hn2 : ¬ (n % 2 = 0) := by
    rcases hodd with ⟨m, hm⟩
    omega
  intro fuel
  induction fuel with
  | zero => intro a res ha haf _; omega
  | succ fuel ih =>
    intro a res ha haf hres
    by_cases he : a % 2 = 0
    · simp only [legStrip, if_pos he]
      have hstep := ih (a / 2) (if n % 8 = 3 ∨ n % 8 = 5 then -res else res)
        (by omega) (by omega) (by rcases hres with h | h <;> simp [h] <;> tauto)
      obtain ⟨a1, res1, heq, h1, h2, h3, h4, h5⟩ := hstep
      refine ⟨a1, res1, heq, h1, h2, by omega, h4, ?_⟩
      rw [h5]
      have hsplit : (a : ℤ) = 2 * ((a / 2 : Nat) : ℤ) := by
        push_cast
        omega
      rw [hsplit, jacobiSym.mul_left, jacobiSym.at_two hodd,
        ZMod.χ₈_nat_eq_if_mod_eight, if_neg hn2]
      by_cases hflip : n % 8 = 3 ∨ n % 8 = 5
      · rw [if_pos hflip, if_neg (by omega)]
        ring
      · rw [if_neg hflip, if_pos (by omega)]
        ring
    · simp only [legStrip, if_neg he]
      exact ⟨a, res, rfl, by omega, ha, le_rfl, hres, rfl⟩

theorem legOuter_eq_jacobi :
    ∀ fuel a n res, a < fuel → Odd n → 0 < n → (res = 1 ∨ res = -1) →
      legOuter fuel a n res = some (res * jacobiSym a n) := by
  intro fuel
  induction fuel with
  | zero => intro a n res h _ _ _; omega
  | succ fuel ih =>
    intro a n res haf hodd hn hres
    by_cases ha0 : a = 0
    · subst ha0
      by_cases hn1 : n = 1
      · subst hn1
        simp [legOuter, jacobiSym.one_right]
      · simp [legOuter, hn1, jacobiSym.zero_left (show 1 < n by omega)]
    · simp only [legOuter, if_neg ha0]
      obtain ⟨a1, res1, heq, h1, h2, h3, h4, h5⟩ :=
        legStrip_spec hodd a a res (by omega) le_rfl hres
      rw [heq]
      dsimp only
      have hodd1 : Odd a1 := by
        refine ⟨a1 / 2, by omega⟩
      have hrec := ih (n % a1) a1
        (if n % 4 = 3 ∧ a1 % 4 = 3 then -res1 else res1)
        (by
          have := Nat.mod_lt n h2
          omega)
        hodd1 h2
        (by rcases h4 with h | h <;> simp [h] <;> tauto)
      rw [hrec]
      congr 1
      have hmodcast : ((n % a1 : Nat) : ℤ) = (n : ℤ) % (a1 : ℤ) := by
        push_cast
        ring
      rw [hmodcast, ← jacobiSym.mod_left]
      have hna : Odd n := hodd
      -- quadratic reciprocity, split on the two residues mod 4
      have hn4 : n % 4 = 1 ∨ n % 4 = 3 := by
        rcases hodd with ⟨m, hm⟩
        omega
      have ha4 : a1 % 4 = 1 ∨ a1 % 4 = 3 := by omega
      by_cases hflip : n % 4 = 3 ∧ a1 % 4 = 3
      · rw [if_pos hflip,
          jacobiSym.quadratic_reciprocity_three_mod_four hflip.1 hflip.2,
          neg_mul_neg]
        exact h5
      · rw [if_neg hflip]
        rcases hn4 with h | h
        · rw [jacobiSym.quadratic_reciprocity_one_mod_four h hodd1]
          exact h5
        · have ha1 : a1 % 4 = 1 := by tauto
          rw [jacobiSym.quadratic_reciprocity_one_mod_four' hna ha1]
          exact h5

/-- `legendre_symbol_u64` computes exactly the Jacobi symbol for odd
moduli (and in particular terminates: the result is `some _`). -/
theorem legendre_eq_jacobi {a n : Nat} (hodd : Odd n) :
    legendre_symbol_u64 a n = some (jacobiSym a n) := by
  unfold legendre_symbol_u64
  rw [legOuter_eq_jacobi (a + 1) a n 1 (by omega) hodd hodd.pos (Or.inl rfl),
    one_mul]

theorem ssRound_char {n a : Nat} (hodd : Odd n) (hn : 1 < n)
    (hnu : n ≤ U64_MAX + 1) :
    ∃ b, ssRound n (n - 1) ((n - 1) / 2) a = some b ∧
      (b = true ↔ ¬ ssFails n a) := by
  unfold ssRound
  rw [legendre_eq_jacobi hodd]
  simp only [Option.bind_eq_bind, Option.some_bind]
  rcases jacobiSym.trichotomy a n with hx | hx | hx
  · rw [hx]
    norm_num [ssFails, hx]
  · rw [hx]
    norm_num [modpow_eq (show 1 ≤ n by omega) hnu, ssFails, hx]
    constructor
    · intro h
      omega
    · intro h
      omega
  · rw [hx]
    norm_num [modpow_eq (show 1 ≤ n by omega) hnu, ssFails, hx]
    constructor
    · intro h
      omega
    · intro h
      omega

theorem ssLoop_char {n : Nat} (hodd : Odd n) (hn : 1 < n)
    (hnu : n ≤ U64_MAX + 1) (draws : Nat → Nat) :
    ∀ rem i, ∃ res, ssLoop n (n - 1) ((n - 1) / 2) draws i rem = some res ∧
      (res = Primality.Composite ↔
        ∃ t, t < rem ∧ ssFails n (draws (i + t)) ∧
          ∀ s, s < t → ¬ ssFails n (draws (i + s))) ∧
      (res = Primality.ProbablyPrime ↔
        ∀ t, t < rem → ¬ ssFails n (draws (i + t))) := by
  intro rem
  induction rem with
  | zero =>
    intro i
    refine ⟨Primality.ProbablyPrime, rfl, ?_, ?_⟩
    · constructor
      · intro h
        cases h
      · rintro ⟨t, ht, _⟩
        omega
    · constructor
      · intro _ t ht
        omega
      · intro _
        rfl
  | succ rem ih =>
    intro i
    obtain ⟨b, hb, hbiff⟩ := ssRound_char (a := draws i) hodd hn hnu
    rcases Bool.eq_false_or_eq_true b with hbv | hbv
    · -- the round passes: continue
      subst hbv
      have hpass : ¬ ssFails n (draws i) := hbiff.mp rfl
      obtain ⟨res, hres, hc, hp⟩ := ih (i + 1)
      refine ⟨res, ?_, ?_, ?_⟩
      · simp only [ssLoop, hb, Option.bind_eq_bind, Option.some_bind]
        simpa using hres
      · rw [hc]
        constructor
        · rintro ⟨t, ht, hf, hearlier⟩
          refine ⟨t + 1, by omega, by
            rw [show i + (t + 1) = i + 1 + t by omega]
            exact hf, ?_⟩
          intro s hs
          rcases Nat.eq_zero_or_pos s with rfl | hs0
          · simpa using hpass
          · rw [show i + s = i + 1 + (s - 1) by omega]
            exact hearlier (s - 1) (by omega)
        · rintro ⟨t, ht, hf, hearlier⟩
          rcases Nat.eq_zero_or_pos t with rfl | ht0
          · exfalso
            exact hpass (by simpa using hf)
          · refine ⟨t - 1, by omega, by
              rw [show i + 1 + (t - 1) = i + t by omega]
              exact hf, ?_⟩
            intro s hs
            rw [show i + 1 + s = i + (s + 1) by omega]
            exact hearlier (s + 1) (by omega)
      · rw [hp]
        constructor
        · intro h t ht
          rcases Nat.eq_zero_or_pos t with rfl | ht0
          · simpa using hpass
          · rw [show i + t = i + 1 + (t - 1) by omega]
            exact h (t - 1) (by omega)
        · intro h t ht
          rw [show i + 1 + t = i + (t + 1) by omega]
          exact h (t + 1) (by omega)
    · -- the round fails: immediate Composite
      subst hbv
      have hfail : ssFails n (draws i) := by
        by_contra h
        have := hbiff.mpr h
        simp at this
      refine ⟨Primality.Composite, ?_, ?_, ?_⟩
      · simp [ssLoop, hb]
      · constructor
        · intro _
          exact ⟨0, by omega, by simpa using hfail, by omega⟩
        · intro _
          rfl
      · constructor
        · intro h
          cases h
        · intro h
          exfalso
          exact h 0 (by omega) (by simpa using hfail)

/-- Euler's criterion, packaged: no Solovay–Strassen round can fail on a
prime modulus when the witness is not divisible by it. -/
theorem ssFails_prime_false {n a : Nat} (hp : Nat.Prime n) (hn : 2 < n)
    (ha : ¬ n ∣ a) : ¬ ssFails n a := by
  haveI : Fact (Nat.Prime n) := ⟨hp⟩
  have hodd : n % 2 = 1 := (Nat.Prime.eq_two_or_odd hp).resolve_left (by omega)
  have hexp : (n - 1) / 2 = n / 2 := by omega
  have hleg : jacobiSym (a : ℤ) n = legendreSym n (a : ℤ) :=
    (jacobiSym.legendreSym.to_jacobiSym n (a : ℤ)).symm
  have heuler := legendreSym.eq_pow n (a : ℤ)
  intro hfails
  rcases hfails with h0 | ⟨h1, hne⟩ | ⟨hm1, hne⟩
  · rw [hleg] at h0
    have := (legendreSym.eq_zero_iff n (a : ℤ)).mp h0
    rw [Int.cast_natCast] at this
    exact ha ((ZMod.natCast_zmod_eq_zero_iff_dvd a n).mp this)
  · apply hne
    rw [hleg] at h1
    rw [h1] at heuler
    have hcast : ((a ^ ((n - 1) / 2) % n : Nat) : ZMod n) = ((1 : Nat) : ZMod n) := by
      rw [ZMod.natCast_mod, Nat.cast_pow, hexp, Nat.cast_one]
      rw [Int.cast_one] at heuler
      rw [Int.cast_natCast] at heuler
      exact heuler.symm
    exact natCast_inj_of_lt (Nat.mod_lt _ (by omega)) (by omega) hcast
  · apply hne
    rw [hleg] at hm1
    rw [hm1] at heuler
    have hcast : ((a ^ ((n - 1) / 2) % n : Nat) : ZMod n) =
        ((n - 1 : Nat) : ZMod n) := by
      rw [ZMod.natCast_mod, Nat.cast_pow, hexp, natCast_pred_eq_neg_one (by omega)]
      rw [Int.cast_neg, Int.cast_one] at heuler
      rw [Int.cast_natCast] at heuler
      exact heuler.symm
    exact natCast_inj_of_lt (Nat.mod_lt _ (by omega)) (by omega) hcast

/-- On a prime input (in the documented domain) Solovay–Strassen returns
`ProbablyPrime` for every admissible draw sequence. -/
theorem solovay_strassen_u64_prime {n k : Nat} {draws : Nat → Nat}
    (hp : Nat.Prime n) (hn3 : 3 < n) (hodd : Odd n) (hnu : n ≤ U64_MAX)
    (hdraws : ∀ i, 2 ≤ draws i ∧ draws i ≤ n - 1) :
    solovay_strassen_primality_test_u64 n k draws =
      some Primality.ProbablyPrime := by
  unfold solovay_strassen_primality_test_u64
  rw [if_neg (by omega)]
  by_cases h235 : n = 2 ∨ n = 3 ∨ n = 5
  · rw [if_pos h235]
  · rw [if_neg h235]
    obtain ⟨res, hres, _, hpp⟩ :=
      ssLoop_char hodd (by omega) (by unfold U64_MAX at hnu ⊢; omega) draws k 0
    have hresv : res = Primality.ProbablyPrime := by
      refine hpp.mpr ?_
      intro t _
      refine ssFails_prime_false hp (by omega) ?_
      intro hdvd
      have h1 := (hdraws (0 + t)).1
      have h2 := (hdraws (0 + t)).2
      have := Nat.le_of_dvd (by omega) hdvd
      omega
    rw [hres, hresv]

/-- On the prime `2^64 - 2^32 + 1` the 64-bit divisor loop survives
715827882 clean rounds and arrives at candidate `i = 4294967297 = 2^32 + 1`,
whose true square exceeds `u64::MAX`. -/
theorem tdU64_goldilocks_reach :
    trial_division_u64 18446744069414584321 =
      tdLoopChecked U64_MAX 18446744069414584321
        (18446744069414584321 - 715827882) 4294967297 := by
  have h1 : trial_division_u64 18446744069414584321 =
      tdLoopChecked U64_MAX 18446744069414584321 18446744069414584321 5 := by
    unfold trial_division_u64
    rw [if_neg (by norm_num), if_neg (by decide), if_neg (by norm_num)]
  rw [h1]
  have hsteps := tdLoopChecked_steps U64_MAX 18446744069414584321 715827882
    (18446744069414584321 - 715827882) 5 ?_
  · rw [show 18446744069414584321 - 715827882 + 715827882 =
      18446744069414584321 by norm_num] at hsteps
    rw [hsteps, show 5 + 6 * 715827882 = 4294967297 by norm_num]
  · intro j hj
    have hij : 5 + 6 * j ≤ 4294967291 := by omega
    have hsq : (5 + 6 * j) * (5 + 6 * j) ≤ 4294967291 * 4294967291 :=
      Nat.mul_le_mul hij hij
    refine ⟨by unfold U64_MAX; omega, by omega, ?_, ?_⟩
    · intro hmod
      have hdvd := Nat.dvd_of_mod_eq_zero hmod
      rcases (Nat.Prime.eq_one_or_self_of_dvd goldilocks_prime _ hdvd) with h | h <;>
        omega
    · intro hmod
      have hdvd := Nat.dvd_of_mod_eq_zero hmod
      rcases (Nat.Prime.eq_one_or_self_of_dvd goldilocks_prime _ hdvd) with h | h <;>
        omega

/-- Same phenomenon one width up: on the prime `2^128 - 675` the 128-bit
divisor loop reaches `i = 18446744073709551617 = 2^64 + 1`, whose true
square exceeds `u128::MAX`. -/
theorem tdU128_nearMax_reach :
    trial_division_u128 340282366920938463463374607431768210781 =
      tdLoopChecked U128_MAX 340282366920938463463374607431768210781
        (340282366920938463463374607431768210781 - 3074457345618258602)
        18446744073709551617 := by
  have h1 : trial_division_u128 340282366920938463463374607431768210781 =
      tdLoopChecked U128_MAX 340282366920938463463374607431768210781
        340282366920938463463374607431768210781 5 := by
    unfold trial_division_u128
    rw [if_neg (by norm_num [U64_MAX]), if_neg (by norm_num)]
  rw [h1]
  have hsteps := tdLoopChecked_steps U128_MAX
    340282366920938463463374607431768210781 3074457345618258602
    (340282366920938463463374607431768210781 - 3074457345618258602) 5 ?_
  · rw [show 340282366920938463463374607431768210781 - 3074457345618258602 +
      3074457345618258602 = 340282366920938463463374607431768210781 by norm_num]
      at hsteps
    rw [hsteps, show 5 + 6 * 3074457345618258602 = 18446744073709551617 by norm_num]
  · intro j hj
    have hij : 5 + 6 * j ≤ 18446744073709551611 := by omega
    have hsq : (5 + 6 * j) * (5 + 6 * j) ≤
        18446744073709551611 * 18446744073709551611 :=
      Nat.mul_le_mul hij hij
    refine ⟨by unfold U128_MAX; omega, by omega, ?_, ?_⟩
    · intro hmod
      have hdvd := Nat.dvd_of_mod_eq_zero hmod
      rcases (Nat.Prime.eq_one_or_self_of_dvd nearMax128_prime _ hdvd) with h | h <;>
        omega
    · intro hmod
      have hdvd := Nat.dvd_of_mod_eq_zero hmod
      rcases (Nat.Prime.eq_one_or_self_of_dvd nearMax128_prime _ hdvd) with h | h <;>
        omega

/-! ## The randomness contract (claim C7) -/

/-- Auxiliary to claim C1 (the completeness half): for every `n > 2` in
`u64` range, a prime input is always classified `Prime` by the
deterministic Miller–Rabin test.  (The soundness half — every composite
is classified `Composite` — rests on the published exhaustive witness-set
verifications and is not re-proved here.) -/
theorem millerRabinU64_prime_input {n : Nat} (h2 : 2 < n) (hnu : n ≤ U64_MAX)
    (hp : Nat.Prime n) :
    miller_rabin_primality_test_u64 n = some Primality.Prime :=
  miller_rabin_u64_complete h2 hnu hp

/-- Auxiliary to claim C1: the concrete fixture — the largest prime below
`2^64` is classified `Prime`. -/
theorem millerRabinU64_fixture :
    miller_rabin_primality_test_u64 18446744073709551557 =
      some Primality.Prime := by decide

/-- C2: for every `n > 2` the deterministic witness set is selected by a
single range lookup over exactly the claimed inclusive upper thresholds,
with the 12-witness set used above the last threshold; the `n ≤ 2`
(`unreachable!`) branch is never taken (the result is always `some _`). -/
theorem claim_C2_witness_selection :
    specWitnessTable.map Prod.fst =
      [2046, 1373652, 9080190, 25326000, 3215031750, 4759123140,
       1122004669632, 2152302898746, 3474749660382, 341550071728320,
       3825123056546413050] ∧
    (∀ n, 3825123056546413050 < n →
      specWitnessLookup n = [2, 3, 5, 7, 11, 13, 17, 19, 23, 29, 31, 37]) ∧
    (∀ n, 2 < n → witnessesU64 n = some (specWitnessLookup n)) := by
  refine ⟨rfl, ?_, fun n hn => witnessesU64_eq_lookup hn⟩
  intro n hn
  have h1 : ¬ n ≤ 2046 := by omega
  have h2 : ¬ n ≤ 1373652 := by omega
  have h3 : ¬ n ≤ 9080190 := by omega
  have h4 : ¬ n ≤ 25326000 := by omega
  have h5 : ¬ n ≤ 3215031750 := by omega
  have h6 : ¬ n ≤ 4759123140 := by omega
  have h7 : ¬ n ≤ 1122004669632 := by omega
  have h8 : ¬ n ≤ 2152302898746 := by omega
  have h9 : ¬ n ≤ 3474749660382 := by omega
  have h10 : ¬ n ≤ 341550071728320 := by omega
  have h11 : ¬ n ≤ 3825123056546413050 := by omega
  simp [specWitnessLookup, specWitnessTable, List.find?,
    h1, h2, h3, h4, h5, h6, h7, h8, h9, h10, h11]

theorem claim_C2_witness_selection_witness :
    witnessesU64 4759123141 = some (specWitnessLookup 4759123141) ∧
    specWitnessLookup 18446744073709551615 =
      [2, 3, 5, 7, 11, 13, 17, 19, 23, 29, 31, 37] :=
  ⟨claim_C2_witness_selection.2.2 4759123141 (by norm_num),
   claim_C2_witness_selection.2.1 18446744073709551615 (by norm_num)⟩

/-- C3 (amended): for every `n` below `(2^32 - 5)^2 = 18446744030759878681`
`trial_division_u64` returns exactly the claimed classification
(`ZeroOrOne` for 0/1, direct membership for the 25 enumerated primes,
`Composite` for even/multiple-of-3/stepped-divisor inputs, `Prime` on
loop exhaustion), and the three concrete fixtures hold.  Above that bound
the claim fails: see the counterexample. -/
theorem claim_C3_trial_division_u64 :
    (∀ n, n < 18446744030759878681 → trial_division_u64 n = some (tdSpec n)) ∧
    trial_division_u64 97 = some Primality.Prime ∧
    trial_division_u64 91 = some Primality.Composite ∧
    trial_division_u64 2 = some Primality.Prime :=
  ⟨fun _ hn => trial_division_u64_eq hn, by decide, by decide, by decide⟩

theorem claim_C3_trial_division_u64_witness :
    trial_division_u64 25 = some (tdSpec 25) :=
  claim_C3_trial_division_u64.1 25 (by norm_num)

/-- C3 counterexample: on the prime input `2^64 - 2^32 + 1` (a valid
`u64`), `trial_division_u64` does not return any `Primality` value — its
candidate squaring overflows (checked builds abort), although the claim
promises `Prime` on loop exhaustion for this prime. -/
theorem claim_C3_counterexample :
    Nat.Prime 18446744069414584321 ∧
    18446744069414584321 ≤ U64_MAX ∧
    trial_division_u64 18446744069414584321 = none := by
  refine ⟨goldilocks_prime, by unfold U64_MAX; omega, ?_⟩
  rw [tdU64_goldilocks_reach]
  exact tdLoopChecked_overflow (by norm_num) (by unfold U64_MAX; norm_num)

/-- C4: the Solovay–Strassen small cases, and for every other odd `u64`
input the test returns `Composite` exactly when some reached round fails
(Legendre symbol `0`, or `±1` with the Euler power disagreeing), and
`ProbablyPrime` exactly when all `k` rounds pass. -/
theorem claim_C4_solovay_strassen_structure :
    (∀ k draws,
      solovay_strassen_primality_test_u64 0 k draws = some Primality.ZeroOrOne ∧
      solovay_strassen_primality_test_u64 1 k draws = some Primality.ZeroOrOne ∧
      solovay_strassen_primality_test_u64 2 k draws = some Primality.ProbablyPrime ∧
      solovay_strassen_primality_test_u64 3 k draws = some Primality.ProbablyPrime ∧
      solovay_strassen_primality_test_u64 5 k draws = some Primality.ProbablyPrime) ∧
    (∀ n k draws, Odd n → n ≤ U64_MAX → ¬ (n = 1 ∨ n = 3 ∨ n = 5) →
      ∃ res, solovay_strassen_primality_test_u64 n k draws = some res ∧
        (res = Primality.Composite ↔
          ∃ t, t < k ∧ ssFails n (draws t) ∧ ∀ s, s < t → ¬ ssFails n (draws s)) ∧
        (res = Primality.ProbablyPrime ↔ ∀ t, t < k → ¬ ssFails n (draws t))) := by
  constructor
  · intro k draws
    exact ⟨rfl, rfl, rfl, rfl, rfl⟩
  · intro n k draws hodd hnu hsmall
    have hn7 : 7 ≤ n := by
      rcases hodd with ⟨m, hm⟩
      omega
    unfold solovay_strassen_primality_test_u64
    rw [if_neg (by omega), if_neg (by omega)]
    obtain ⟨res, hres, hc, hp⟩ :=
      ssLoop_char hodd (by omega) (by unfold U64_MAX at hnu ⊢; omega) draws k 0
    refine ⟨res, hres, ?_, ?_⟩
    · rw [hc]
      constructor
      · rintro ⟨t, ht, hf, he⟩
        exact ⟨t, ht, by simpa using hf, fun s hs => by simpa using he s hs⟩
      · rintro ⟨t, ht, hf, he⟩
        exact ⟨t, ht, by simpa using hf, fun s hs => by simpa using he s hs⟩
    · rw [hp]
      constructor
      · intro h t ht
        simpa using h t ht
      · intro h t ht
        simpa using h t ht

theorem claim_C4_solovay_strassen_structure_witness :
    solovay_strassen_primality_test_u64 9 1 (fun _ => 2) =
      some Primality.Composite := by
  obtain ⟨res, hres, hc, _⟩ :=
    claim_C4_solovay_strassen_structure.2 9 1 (fun _ => 2)
      (by decide) (by unfold U64_MAX; omega) (by norm_num)
  have hj : jacobiSym 2 9 = 1 := by
    have h := legendre_eq_jacobi (a := 2) (n := 9) (by decide)
    have h2 : legendre_symbol_u64 2 9 = some 1 := by decide
    rw [h2] at h
    exact (Option.some.inj h).symm
  have hfail : ssFails 9 2 := by
    right
    left
    refine ⟨by exact_mod_cast hj, by norm_num⟩
  have : res = Primality.Composite :=
    hc.mpr ⟨0, by omega, hfail, by omega⟩
  rw [this] at hres
  exact hres

/-- C5: for every odd `n > 1` and `2 ≤ a ≤ n - 2`, `legendre_symbol_u64`
terminates with a value in `{-1, 0, 1}` (hence the `unreachable!` arm in
Solovay–Strassen's decision table is dead), and `legendre(2,7) = 1`. -/
theorem claim_C5_legendre_symbol :
    (∀ a n : Nat, Odd n → 1 < n → 2 ≤ a → a ≤ n - 2 →
      ∃ r, legendre_symbol_u64 a n = some r ∧ (r = -1 ∨ r = 0 ∨ r = 1)) ∧
    legendre_symbol_u64 2 7 = some 1 := by
  constructor
  · intro a n hodd _ _ _
    refine ⟨jacobiSym a n, legendre_eq_jacobi hodd, ?_⟩
    rcases jacobiSym.trichotomy a n with h | h | h
    · exact Or.inr (Or.inl h)
    · exact Or.inr (Or.inr h)
    · exact Or.inl h
  · decide

theorem claim_C5_legendre_symbol_witness :
    ∃ r, legendre_symbol_u64 3 11 = some r ∧ (r = -1 ∨ r = 0 ∨ r = 1) :=
  claim_C5_legendre_symbol.1 3 11 (by decide) (by norm_num) (by norm_num)
    (by norm_num)

/-- C6: `modmul_u64` computes `a*b mod m` for all `u64` operands (with
`m ≥ 1`) without its internal assertion ever failing, and `modpow`
computes `base^exponent mod modulus` for every `modulus ≥ 1`, with the
claimed special cases. -/
theorem claim_C6_modular_arithmetic :
    (∀ a b m : Nat, a ≤ U64_MAX → b ≤ U64_MAX → m ≤ U64_MAX → 1 ≤ m →
      modmul_u64 a b m = some (a * b % m)) ∧
    (∀ base e m : Nat, 1 ≤ m → m ≤ U64_MAX →
      modpow base e m = some (base ^ e % m)) ∧
    (∀ base e : Nat, modpow base e 1 = some 0) ∧
    (∀ base m : Nat, 1 < m → m ≤ U64_MAX → modpow base 0 m = some 1) := by
  refine ⟨?_, ?_, ?_, ?_⟩
  · intro a b m _ _ hm h1
    exact modmul_u64_eq h1 (by omega)
  · intro base e m h1 hm
    exact modpow_eq h1 (by omega)
  · intro base e
    rfl
  · intro base m h1 hm
    rw [modpow_eq (by omega) (by omega), pow_zero, Nat.mod_eq_of_lt h1]

theorem claim_C6_modular_arithmetic_witness :
    modmul_u64 3 5 7 = some 1 ∧ modpow 3 4 7 = some 4 :=
  ⟨(claim_C6_modular_arithmetic.1 3 5 7 (by norm_num [U64_MAX])
      (by norm_num [U64_MAX]) (by norm_num [U64_MAX]) (by norm_num)).trans
    (by norm_num),
   (claim_C6_modular_arithmetic.2.1 3 4 7 (by norm_num)
      (by norm_num [U64_MAX])).trans (by norm_num)⟩

/-- C7: under the spec's closed-range randomness contract, every witness
the probabilistic Miller–Rabin run examines lies in `[2, n-2]` and each
such value can be drawn; likewise `[2, n-1]` for Solovay–Strassen. -/
theorem claim_C7_draw_ranges :
    (∀ n k draws a, mrDrawAdmissible n draws → mrExamines n k draws a →
      2 ≤ a ∧ a ≤ n - 2) ∧
    (∀ n a, 2 ≤ a → a ≤ n - 2 → ∀ k, 0 < k →
      ∃ draws, mrDrawAdmissible n draws ∧ mrExamines n k draws a) ∧
    (∀ n k draws a, ssDrawAdmissible n draws → ssExamines n k draws a →
      2 ≤ a ∧ a ≤ n - 1) ∧
    (∀ n a, 2 ≤ a → a ≤ n - 1 → ∀ k, 0 < k →
      ∃ draws, ssDrawAdmissible n draws ∧ ssExamines n k draws a) := by
  refine ⟨?_, ?_, ?_, ?_⟩
  · rintro n k draws a hadm ⟨i, _, rfl, _⟩
    exact hadm i
  · intro n a h2 hn2 k hk
    exact ⟨fun _ => a, fun _ => ⟨h2, hn2⟩, 0, hk, rfl, by omega⟩
  · rintro n k draws a hadm ⟨i, _, rfl, _⟩
    exact hadm i
  · intro n a h2 hn1 k hk
    exact ⟨fun _ => a, fun _ => ⟨h2, hn1⟩, 0, hk, rfl, by omega⟩

theorem claim_C7_draw_ranges_witness :
    (2 ≤ 4 ∧ 4 ≤ 9 - 2) ∧
    ∃ draws, mrDrawAdmissible 9 draws ∧ mrExamines 9 1 draws 4 :=
  ⟨⟨by norm_num, by norm_num⟩,
   claim_C7_draw_ranges.2.1 9 4 (by norm_num) (by norm_num) 1 (by norm_num)⟩

/-- C8 (amended): the 128-bit and arbitrary-precision trial divisions
delegate exactly to the narrower variant whenever the value fits; above
`u64::MAX` the 128-bit loop matches the common even/3 + 6k±1
classification for `n < (2^64 - 5)^2` (beyond that its squaring can
overflow — see the counterexample), and above `u128::MAX` the
arbitrary-precision loop always matches it. -/
theorem claim_C8_wider_variants :
    (∀ n, n ≤ U64_MAX → trial_division_u128 n = trial_division_u64 n) ∧
    (∀ n, n ≤ U128_MAX → trial_division_biguint n = trial_division_u128 n) ∧
    (∀ n, U64_MAX < n → n < 340282366920938463278907166694672695321 →
      trial_division_u128 n = some (tdSpecLarge n)) ∧
    (∀ n, U128_MAX < n → trial_division_biguint n = some (tdSpecLarge n)) := by
  refine ⟨?_, ?_, ?_, ?_⟩
  · intro n hn
    unfold trial_division_u128
    rw [if_pos hn]
  · intro n hn
    unfold trial_division_biguint
    rw [if_pos hn]
  · intro n h1 h2
    exact trial_division_u128_eq h1 h2
  · intro n h1
    exact trial_division_biguint_eq h1

theorem claim_C8_wider_variants_witness :
    trial_division_u128 91 = trial_division_u64 91 ∧
    trial_division_biguint 121 = trial_division_u128 121 :=
  ⟨claim_C8_wider_variants.1 91 (by unfold U64_MAX; omega),
   claim_C8_wider_variants.2.1 121 (by unfold U128_MAX; omega)⟩

/-- C8 counterexample: on the prime `2^128 - 675` (a valid `u128` above
`u64::MAX`), the 128-bit variant returns no classification at all — the
claimed "same Prime/Composite classification" fails because the loop's
squaring overflows `u128`. -/
theorem claim_C8_counterexample :
    Nat.Prime 340282366920938463463374607431768210781 ∧
    U64_MAX < 340282366920938463463374607431768210781 ∧
    340282366920938463463374607431768210781 ≤ U128_MAX ∧
    trial_division_u128 340282366920938463463374607431768210781 = none := by
  refine ⟨nearMax128_prime, by unfold U64_MAX; omega, by unfold U128_MAX; omega, ?_⟩
  rw [tdU128_nearMax_reach]
  exact tdLoopChecked_overflow (by norm_num) (by unfold U128_MAX; norm_num)

/-- C9 (amended): for every input below `(2^32 - 5)^2` each squaring the
64-bit divisor loop evaluates fits in `u64` and the loop terminates with
exact comparisons — `trial_division_u64` returns a value.  At larger
prime inputs the squaring leaves `u64` range: see the counterexample. -/
theorem claim_C9_square_bound :
    ∀ n, n < 18446744030759878681 → trial_division_u64 n ≠ none := by
  intro n hn
  rw [trial_division_u64_eq hn]
  exact Option.some_ne_none _

theorem claim_C9_square_bound_witness : trial_division_u64 49 ≠ none :=
  claim_C9_square_bound 49 (by norm_num)

/-- C9 counterexample: on input `2^64 - 2^32 + 1` the loop reaches the
candidate `i = 4294967297` whose true square `i*i` exceeds `u64::MAX`, so
the comparison `i*i ≤ n` is not computed on the exact square (checked
builds abort on the overflow). -/
theorem claim_C9_counterexample :
    trial_division_u64 18446744069414584321 =
      tdLoopChecked U64_MAX 18446744069414584321
        (18446744069414584321 - 715827882) 4294967297 ∧
    U64_MAX < 4294967297 * 4294967297 ∧
    0 < 18446744069414584321 - 715827882 :=
  ⟨tdU64_goldilocks_reach, by unfold U64_MAX; norm_num, by norm_num⟩

/-- C10: for every prime in the documented domain and every admissible
draw sequence, the probabilistic Miller–Rabin test and Solovay–Strassen
never return `Composite`. -/
theorem claim_C10_primes_never_composite :
    (∀ n k draws, Nat.Prime n → 4 < n → Odd n → mrDrawAdmissible n draws →
      miller_rabin_primality_test_biguint n k draws ≠ Primality.Composite) ∧
    (∀ n k draws, Nat.Prime n → 3 < n → Odd n → n ≤ U64_MAX →
      ssDrawAdmissible n draws →
      solovay_strassen_primality_test_u64 n k draws ≠
        some Primality.Composite) := by
  constructor
  · intro n k draws hp hn _ hadm
    rw [miller_rabin_biguint_prime hp hn hadm]
    intro h
    cases h
  · intro n k draws hp hn hodd hnu hadm
    rw [solovay_strassen_u64_prime hp hn hodd hnu hadm]
    intro h
    have := Option.some.inj h
    cases this

theorem claim_C10_primes_never_composite_witness :
    miller_rabin_primality_test_biguint 7 1 (fun _ => 2) ≠
      Primality.Composite ∧
    solovay_strassen_primality_test_u64 7 1 (fun _ => 2) ≠
      some Primality.Composite :=
  ⟨claim_C10_primes_never_composite.1 7 1 (fun _ => 2) (by norm_num)
      (by norm_num) (by decide) (fun _ => by norm_num),
   claim_C10_primes_never_composite.2 7 1 (fun _ => 2) (by norm_num)
      (by norm_num) (by decide) (by unfold U64_MAX; omega)
      (fun _ => by norm_num)⟩
